import Mathlib

/-!
# Verification of the battery trading strategy

A shallow embedding of `battery_trading_strategy.py` (class `BatteryTrading`):
the day-scoped opportunity selector (`find_best_trade`), the stateful
execution engine (`execute_trade` / `buy_energy` / `sell_energy`) and the
day-level driver (`run`), together with proofs of the specified properties.

Prices and amounts are modelled as rationals; timestamps are modelled as a
pair of an absolute hour index (which gives the chronological order used by
all timestamp comparisons) and the calendar month the instant falls in
(which is what `timestamp.month` reads in the source).
-/

/-- A timestamp: absolute hour index `t` (chronological order) plus the
calendar month it belongs to (`timestamp.month` in the source). -/
structure Ts where
  t : Nat
  month : Nat
deriving DecidableEq, Repr

/-- The construction-time parameters of `BatteryTrading.__init__`
(battery capacity, charge speed, efficiency, day-ahead hour, minimum
per-kWh profit, and the fixed returnable tax). -/
structure Config where
  capacity : ℚ
  speed : ℚ
  efficiency : ℚ
  day_ahead_time : Nat
  profit_min : ℚ
  tax_fixed_returnable : ℚ
deriving DecidableEq, Repr

/-- One row appended to `self.transactions`: the eleven ledger columns in
source order. -/
structure ActionRecord where
  date : Ts
  action : String
  amount_kwh : ℚ
  amount_eur : ℚ
  price : ℚ
  balance : ℚ
  cycles : Nat
  capacity_cycles : ℚ
  profit : ℚ
  month_profit : ℚ
  total_profit : ℚ
deriving DecidableEq, Repr

/-- The mutable state of a run: the fields set in `__init__`
(`balance`, `cycles`, `capacity_cycles`, `total_profit`, `monthly_profit`,
`month_current`, `transactions`) together with the `buy_log` list that the
source threads through `run` / `execute_trade` / `buy_energy` /
`sell_energy`.  A pending lot is `(buy_time, amount_kwh, buy_price)`. -/
structure EngineState where
  balance : ℚ
  cycles : Nat
  capacity_cycles : ℚ
  total_profit : ℚ
  monthly_profit : ℚ
  month_current : Nat
  buy_log : List (Ts × ℚ × ℚ)
  transactions : List ActionRecord
deriving DecidableEq, Repr

/-- The state created by `__init__`: everything zero, empty logs
(`month_current` starts at `0`, which is not a calendar month). -/
def initState : EngineState :=
  { balance := 0, cycles := 0, capacity_cycles := 0, total_profit := 0,
    monthly_profit := 0, month_current := 0, buy_log := [], transactions := [] }

/-- `buy_energy(timestamp, amount_kwh, price, buy_log)`: add the bought
amount to the balance, count one cycle, accumulate `amount_kwh / capacity`
capacity cycles, push the lot at the back of the buy log, and append a
`buy` ledger row (profit column `0`, month/total profit columns at their
pre-action values). -/
def buy_energy (cfg : Config) (timestamp : Ts) (amount_kwh price : ℚ)
    (s : EngineState) : EngineState :=
  { s with
    balance := s.balance + amount_kwh
    cycles := s.cycles + 1
    capacity_cycles := s.capacity_cycles + amount_kwh / cfg.capacity
    buy_log := s.buy_log ++ [(timestamp, amount_kwh, price)]
    transactions := s.transactions ++
      [{ date := timestamp, action := "buy", amount_kwh := amount_kwh,
         amount_eur := amount_kwh * price, price := price,
         balance := s.balance + amount_kwh, cycles := s.cycles + 1,
         capacity_cycles := s.capacity_cycles + amount_kwh / cfg.capacity,
         profit := 0, month_profit := s.monthly_profit,
         total_profit := s.total_profit }] }

/-- `sell_energy(timestamp, price, buy_log)`: the source loops over
`buy_log` guarded by `self.balance > 0` and `break`s after the first
processed lot, so it either does nothing (empty log or non-positive
balance) or matches the oldest lot: `amount_kwh = min(speed, balance,
buy_amount)`, realizes the profit (resetting the monthly accumulator
first when the calendar month changed), removes the whole lot, and
appends one `sell` ledger row. -/
def sell_energy (cfg : Config) (timestamp : Ts) (price : ℚ)
    (s : EngineState) : EngineState :=
  match s.buy_log with
  | [] => s
  | (_buy_time, buy_amount, buy_price) :: rest =>
    if 0 < s.balance then
      let amount_kwh := min cfg.speed (min s.balance buy_amount)
      let profit := amount_kwh * (price + cfg.tax_fixed_returnable) * cfg.efficiency
        - amount_kwh * (buy_price + cfg.tax_fixed_returnable)
      let month_current := if s.month_current ≠ timestamp.month then timestamp.month
        else s.month_current
      let monthly_base := if s.month_current ≠ timestamp.month then 0 else s.monthly_profit
      { s with
        balance := s.balance - amount_kwh
        total_profit := s.total_profit + profit
        monthly_profit := monthly_base + profit
        month_current := month_current
        buy_log := rest
        transactions := s.transactions ++
          [{ date := timestamp, action := "sell", amount_kwh := amount_kwh,
             amount_eur := amount_kwh * price * cfg.efficiency, price := price,
             balance := s.balance - amount_kwh, cycles := s.cycles,
             capacity_cycles := s.capacity_cycles, profit := profit,
             month_profit := monthly_base + profit,
             total_profit := s.total_profit + profit }] }
    else s

/-- `execute_trade(buy_time, sell_time, amount, buy_log)`: recompute the
amount as `min(speed, capacity - balance)` (the `amount` argument is
ignored by the source), look up the two prices, then buy and sell. -/
def execute_trade (cfg : Config) (prices : Ts → ℚ) (buy_time sell_time : Ts)
    (s : EngineState) : EngineState :=
  let amount_kwh := min cfg.speed (cfg.capacity - s.balance)
  let buy_price := prices buy_time
  let sell_price := prices sell_time
  sell_energy cfg sell_time sell_price (buy_energy cfg buy_time amount_kwh buy_price s)

/-- The body of the nested loop of `find_best_trade` for one (buy row,
sell row) pair: a candidate when the sell is strictly later and the unit
profit `(sell_price + tax) * efficiency - (buy_price + tax)` reaches
`profit_min`. -/
def candidate_of (cfg : Config) (bp sp : Ts × ℚ) : Option (Ts × Ts × ℚ) :=
  if bp.1.t < sp.1.t then
    let profit_kwh := (sp.2 + cfg.tax_fixed_returnable) * cfg.efficiency
      - (bp.2 + cfg.tax_fixed_returnable)
    if cfg.profit_min ≤ profit_kwh then some (bp.1, sp.1, profit_kwh) else none
  else none

/-- The candidate enumeration of `find_best_trade`: every ordered pair of
day rows with the sell strictly later than the buy whose unit profit
reaches `profit_min`, in buy-row order then sell-row order. -/
def candidate_trades (cfg : Config) (day_data : List (Ts × ℚ)) :
    List (Ts × Ts × ℚ) :=
  day_data.flatMap fun bp => day_data.filterMap fun sp => candidate_of cfg bp sp

/-- Stable descending insertion (by the profit component) used to model
`best_trades.sort(key=lambda x: x[2], reverse=True)`: the new element goes
in front of the first element whose profit is `≤` its own, so elements
with equal profit keep their enumeration order. -/
def insert_trade (x : Ts × Ts × ℚ) : List (Ts × Ts × ℚ) → List (Ts × Ts × ℚ)
  | [] => [x]
  | y :: ys => if y.2.2 ≤ x.2.2 then x :: y :: ys else y :: insert_trade x ys

/-- Stable sort of the candidates by profit, descending (Python's
`list.sort` with `reverse=True` is stable, and any two stable sorts for
the same key agree, so insertion sort is an exact model). -/
def sort_trades : List (Ts × Ts × ℚ) → List (Ts × Ts × ℚ)
  | [] => []
  | x :: xs => insert_trade x (sort_trades xs)

/-- The greedy pass of `find_best_trade`: walk the sorted candidates,
keeping a trade when neither of its timestamps is in `used_timestamps`,
and recording both of its timestamps when it is kept. -/
def group_best_trades : List (Ts × Ts × ℚ) → List Ts → List (Ts × Ts × ℚ)
  | [], _ => []
  | (buy_timestamp, sell_timestamp, profit) :: rest, used_timestamps =>
    if buy_timestamp ∉ used_timestamps ∧ sell_timestamp ∉ used_timestamps then
      (buy_timestamp, sell_timestamp, profit) ::
        group_best_trades rest (used_timestamps ++ [buy_timestamp, sell_timestamp])
    else group_best_trades rest used_timestamps

/-- `find_best_trade(day_data)`: enumerate candidates, sort by profit
descending (stable), then greedily drop trades reusing a timestamp. -/
def find_best_trade (cfg : Config) (day_data : List (Ts × ℚ)) :
    List (Ts × Ts × ℚ) :=
  group_best_trades (sort_trades (candidate_trades cfg day_data)) []

/-- The driver's guard `last_sell_time is None or buy_time > last_sell_time`. -/
def last_sell_ok (last : Option Ts) (buy_time : Ts) : Bool :=
  match last with
  | none => true
  | some l => decide (l.t < buy_time.t)

/-- The inner loop of `run` over one day's `best_trades`: execute a trade
when the guard holds, and update `last_sell_time` to the trade's sell
time whether or not the trade was executed (the assignment sits outside
the `if` in the source). -/
def process_trades (cfg : Config) (prices : Ts → ℚ) :
    List (Ts × Ts × ℚ) → Option Ts → EngineState → EngineState × Option Ts
  | [], last, s => (s, last)
  | (buy_time, sell_time, _profit_kwh) :: rest, last, s =>
    let s' := if last_sell_ok last buy_time then
        execute_trade cfg prices buy_time sell_time s
      else s
    process_trades cfg prices rest (some sell_time) s'

/-- `run()`: iterate the calendar days (the `resample('D')` groups,
supplied here already grouped), call `find_best_trade` on each and feed
the trades to the inner loop, threading `last_sell_time` and the state
across days from `initState` and `last_sell_time = None`. -/
def run (cfg : Config) (prices : Ts → ℚ) (days : List (List (Ts × ℚ))) :
    EngineState :=
  (days.foldl
    (fun acc day_data =>
      process_trades cfg prices (find_best_trade cfg day_data) acc.2 acc.1)
    (initState, (none : Option Ts))).1

/-- The trades the driver actually executes, extracted from the inner
loop: the guard is the source's, and `last_sell_time` advances to every
considered trade's sell time, executed or not. -/
def executed_trades : Option Ts → List (Ts × Ts × ℚ) → List (Ts × Ts × ℚ)
  | _, [] => []
  | last, (buy_time, sell_time, profit_kwh) :: rest =>
    if last_sell_ok last buy_time then
      (buy_time, sell_time, profit_kwh) :: executed_trades (some sell_time) rest
    else executed_trades (some sell_time) rest

/-- Modelled from the claim's words (for comparison with
`executed_trades`): a pair is executed iff it is the first pair
considered or its buy timestamp is strictly after the sell timestamp of
the most recently *executed* pair, a dropped pair leaving `last_sell_time`
untouched. -/
def claim_executed_trades : Option Ts → List (Ts × Ts × ℚ) → List (Ts × Ts × ℚ)
  | _, [] => []
  | last, (buy_time, sell_time, profit_kwh) :: rest =>
    if last_sell_ok last buy_time then
      (buy_time, sell_time, profit_kwh) :: claim_executed_trades (some sell_time) rest
    else claim_executed_trades last rest

/-- `__init__` with a given configuration: the source constructor only
stores the parameters, loads the CSV and zero-initializes the state — it
has no rejection path, so construction always yields the initial state.
(`Option` gives the claimed rejection a place to be stated.) -/
def init_strategy (_cfg : Config) : Option EngineState :=
  some initState

/-- Modelled from the spec: construction "should be validated ... and
rejected before any run starts" for non-positive capacity or speed, or
efficiency outside `(0,1]`.  Stated here only to compare with the
source's `init_strategy`. -/
def init_validated (cfg : Config) : Option EngineState :=
  if cfg.capacity ≤ 0 ∨ cfg.speed ≤ 0 ∨ cfg.efficiency ≤ 0 ∨ 1 < cfg.efficiency then
    none
  else some initState

/-- Sum of the pending-lot amounts in a buy log. -/
def lot_sum : List (Ts × ℚ × ℚ) → ℚ
  | [] => 0
  | l :: ls => l.2.1 + lot_sum ls

/-- A valid configuration in the sense of the spec: positive capacity,
positive speed at most the capacity, efficiency in `(0,1]`. -/
def ValidConfig (cfg : Config) : Prop :=
  0 < cfg.capacity ∧ 0 < cfg.speed ∧ cfg.speed ≤ cfg.capacity ∧
    0 < cfg.efficiency ∧ cfg.efficiency ≤ 1

/-- The states a run can pass through: the initial state, the state after
the buy half of `execute_trade` (whose amount is always
`min(speed, capacity - balance)` at the pre-buy state), and the state
after a sell.  Every state before and after each action of `run` is of
this shape. -/
inductive Reaches (cfg : Config) (prices : Ts → ℚ) : EngineState → Prop
  | init : Reaches cfg prices initState
  | buy (s : EngineState) (buy_time : Ts) : Reaches cfg prices s →
      Reaches cfg prices
        (buy_energy cfg buy_time (min cfg.speed (cfg.capacity - s.balance))
          (prices buy_time) s)
  | sell (s : EngineState) (sell_time : Ts) : Reaches cfg prices s →
      Reaches cfg prices (sell_energy cfg sell_time (prices sell_time) s)

/-! ## Sample data used by the witnesses -/

/-- A small valid configuration: capacity 5, speed 2, efficiency 1, no tax. -/
def cfg_sample : Config :=
  { capacity := 5, speed := 2, efficiency := 1, day_ahead_time := 0,
    profit_min := 0, tax_fixed_returnable := 0 }

/-- A state holding one pending lot of 2 kWh bought at price 3. -/
def state_sample : EngineState :=
  { balance := 2, cycles := 1, capacity_cycles := 2/5, total_profit := 0,
    monthly_profit := 0, month_current := 1,
    buy_log := [(⟨0, 1⟩, 2, 3)], transactions := [] }

/-! ## C5: the buy step -/

/-- C5: an executed pair first buys with amount `min(speed, capacity -
balance)` (even when that amount is zero): the balance grows by exactly
that amount, the cycle counter by exactly 1, the capacity-cycle counter
by `amount / capacity`, the lot `(buy_time, amount, buy_price)` goes to
the back of the FIFO queue, and exactly one buy `ActionRecord` is
appended, with profit `0` and the month/total profit columns at their
pre-action values. -/
theorem buy_step_spec (cfg : Config) (prices : Ts → ℚ) (buy_time sell_time : Ts)
    (s : EngineState) :
    let a := min cfg.speed (cfg.capacity - s.balance)
    let s' := buy_energy cfg buy_time a (prices buy_time) s
    execute_trade cfg prices buy_time sell_time s =
      sell_energy cfg sell_time (prices sell_time) s' ∧
    s'.balance = s.balance + a ∧
    s'.cycles = s.cycles + 1 ∧
    s'.capacity_cycles = s.capacity_cycles + a / cfg.capacity ∧
    s'.buy_log = s.buy_log ++ [(buy_time, a, prices buy_time)] ∧
    s'.total_profit = s.total_profit ∧
    s'.monthly_profit = s.monthly_profit ∧
    s'.month_current = s.month_current ∧
    s'.transactions = s.transactions ++
      [{ date := buy_time, action := "buy", amount_kwh := a,
         amount_eur := a * prices buy_time, price := prices buy_time,
         balance := s.balance + a, cycles := s.cycles + 1,
         capacity_cycles := s.capacity_cycles + a / cfg.capacity,
         profit := 0, month_profit := s.monthly_profit,
         total_profit := s.total_profit }] :=
  ⟨rfl, rfl, rfl, rfl, rfl, rfl, rfl, rfl, rfl⟩

/-! ## C9: no-op sells -/

/-- C9: a sell issued with an empty lot queue or a zero balance changes
nothing at all: the state (every field, including the ledger) is returned
unchanged and no `ActionRecord` is appended. -/
theorem sell_noop (cfg : Config) (timestamp : Ts) (price : ℚ) (s : EngineState)
    (h : s.buy_log = [] ∨ s.balance = 0) :
    sell_energy cfg timestamp price s = s := by
  rcases h with h | h
  · simp only [sell_energy, h]
  · cases hl : s.buy_log with
    | nil => simp only [sell_energy, hl]
    | cons lot rest =>
      simp only [sell_energy, hl, h, lt_self_iff_false, if_false]

/-- Witness for C9 at a concrete state (one lot pending, balance zero). -/
theorem sell_noop_witness :
    sell_energy cfg_sample ⟨1, 1⟩ 7 { state_sample with balance := 0 } =
      { state_sample with balance := 0 } :=
  sell_noop cfg_sample ⟨1, 1⟩ 7 { state_sample with balance := 0 } (Or.inr rfl)

/-! ## C10: construction-time validation -/

/-- A configuration violating all three validity conditions. -/
def bad_config : Config :=
  { capacity := -1, speed := -1, efficiency := 2, day_ahead_time := 0,
    profit_min := 0, tax_fixed_returnable := 0 }

/-- C10 counterexample: `bad_config` has non-positive capacity and speed
and efficiency outside `(0,1]`, yet construction succeeds and produces
the initial simulation state, where the claim demands rejection (the
spec-modelled validating constructor would return `none`). -/
theorem init_no_validation_counterexample :
    (bad_config.capacity ≤ 0 ∧ bad_config.speed ≤ 0 ∧ 1 < bad_config.efficiency) ∧
    init_strategy bad_config = some initState ∧
    init_validated bad_config = none := by
  refine ⟨⟨?_, ?_, ?_⟩, rfl, ?_⟩ <;> norm_num [bad_config, init_validated]

/-- C10 amended: construction performs no validation at all — for every
configuration, valid or not, `__init__` succeeds and creates the
simulation state (balance 0, empty logs). -/
theorem init_no_validation (cfg : Config) : init_strategy cfg = some initState :=
  rfl

/-! ## C2: the sell step -/

/-- C2: a sell with a non-empty lot queue and positive balance matches
the oldest lot with `amount = min(speed, balance, lot_amount)`, adds
`amount * (sell_price + tax) * efficiency - amount * (lot_buy_price + tax)`
to the total profit (and to the monthly profit, restarted from zero at a
month change), subtracts the amount from the balance, consumes exactly
that one lot and stops, and appends exactly one sell `ActionRecord`
whose monetary column is `amount * sell_price * efficiency`. -/
theorem sell_step_spec (cfg : Config) (timestamp : Ts) (price : ℚ)
    (s : EngineState) (buy_time : Ts) (buy_amount buy_price : ℚ)
    (rest : List (Ts × ℚ × ℚ))
    (hlog : s.buy_log = (buy_time, buy_amount, buy_price) :: rest)
    (hbal : 0 < s.balance) :
    let a := min cfg.speed (min s.balance buy_amount)
    let pr := a * (price + cfg.tax_fixed_returnable) * cfg.efficiency
      - a * (buy_price + cfg.tax_fixed_returnable)
    let s' := sell_energy cfg timestamp price s
    s'.buy_log = rest ∧
    s'.balance = s.balance - a ∧
    s'.total_profit = s.total_profit + pr ∧
    s'.monthly_profit =
      (if s.month_current ≠ timestamp.month then 0 else s.monthly_profit) + pr ∧
    s'.cycles = s.cycles ∧
    s'.capacity_cycles = s.capacity_cycles ∧
    s'.transactions = s.transactions ++
      [{ date := timestamp, action := "sell", amount_kwh := a,
         amount_eur := a * price * cfg.efficiency, price := price,
         balance := s.balance - a, cycles := s.cycles,
         capacity_cycles := s.capacity_cycles, profit := pr,
         month_profit :=
           (if s.month_current ≠ timestamp.month then 0 else s.monthly_profit) + pr,
         total_profit := s.total_profit + pr }] := by
  simp only [sell_energy, hlog, if_pos hbal]
  refine ⟨?_, ?_, ?_, ?_, ?_, ?_, ?_⟩ <;> trivial

/-- Witness for C2: selling at price 7 against `state_sample`'s single
lot empties the queue. -/
theorem sell_step_spec_witness :
    state_sample.buy_log = [(⟨0, 1⟩, 2, 3)] ∧ 0 < state_sample.balance ∧
    (sell_energy cfg_sample ⟨1, 1⟩ 7 state_sample).buy_log = [] := by
  have h := sell_step_spec cfg_sample ⟨1, 1⟩ 7 state_sample ⟨0, 1⟩ 2 3 [] rfl
    (by norm_num [state_sample])
  exact ⟨rfl, by norm_num [state_sample], h.1⟩

/-! ## C8: the monthly-profit accumulator -/

/-- C8: on a sell that acts, the tracked month is updated to the sell
timestamp's month (before the profit is added), the monthly profit is
restarted from zero exactly when the calendar month changed and otherwise
keeps its old value before the profit is added; within the same month a
sell with non-negative realized profit never decreases it; and buys
change neither the monthly profit nor the tracked month. -/
theorem month_profit_spec (cfg : Config) (timestamp : Ts) (price : ℚ)
    (s : EngineState) (buy_time : Ts) (buy_amount buy_price : ℚ)
    (rest : List (Ts × ℚ × ℚ))
    (hlog : s.buy_log = (buy_time, buy_amount, buy_price) :: rest)
    (hbal : 0 < s.balance) :
    let a := min cfg.speed (min s.balance buy_amount)
    let pr := a * (price + cfg.tax_fixed_returnable) * cfg.efficiency
      - a * (buy_price + cfg.tax_fixed_returnable)
    let s' := sell_energy cfg timestamp price s
    s'.month_current = timestamp.month ∧
    s'.monthly_profit =
      (if s.month_current ≠ timestamp.month then 0 else s.monthly_profit) + pr ∧
    (timestamp.month = s.month_current → 0 ≤ pr →
      s.monthly_profit ≤ s'.monthly_profit) ∧
    (∀ (t : Ts) (amt p' : ℚ),
      (buy_energy cfg t amt p' s).monthly_profit = s.monthly_profit ∧
      (buy_energy cfg t amt p' s).month_current = s.month_current) := by
  intro a pr s'
  have hs' : s'.monthly_profit =
      (if s.month_current ≠ timestamp.month then 0 else s.monthly_profit) + pr ∧
      s'.month_current = (if s.month_current ≠ timestamp.month then timestamp.month
        else s.month_current) := by
    simp only [s', sell_energy, hlog, if_pos hbal]
    refine ⟨?_, ?_⟩ <;> trivial
  refine ⟨?_, hs'.1, ?_, fun t amt p' => ⟨rfl, rfl⟩⟩
  · rcases eq_or_ne s.month_current timestamp.month with he | hne
    · rw [hs'.2, if_neg (by simp [he]), he]
    · rw [hs'.2, if_pos hne]
  · intro hmonth hpr
    rw [hs'.1, if_neg (by simp [hmonth])]
    linarith

/-- Witness for C8: a same-month sell with non-negative profit at
`state_sample`. -/
theorem month_profit_spec_witness :
    0 < state_sample.balance ∧
    (sell_energy cfg_sample ⟨1, 1⟩ 7 state_sample).month_current = 1 := by
  have h := month_profit_spec cfg_sample ⟨1, 1⟩ 7 state_sample ⟨0, 1⟩ 2 3 [] rfl
    (by norm_num [state_sample])
  exact ⟨by norm_num [state_sample], h.1⟩

/-! ## C1: the candidate enumeration -/

/-- C1: `find_best_trade` enumerates a candidate for exactly the ordered
pairs of day price points whose sell timestamp is strictly later than the
buy timestamp and whose unit profit
`(sell_price + tax) * efficiency - (buy_price + tax)` is at least
`profit_min`; every other pair is excluded.  (The second conjunct records
that these candidates are precisely what the rest of `find_best_trade`
sorts and groups.) -/
theorem candidate_trades_spec (cfg : Config) (day_data : List (Ts × ℚ))
    (tb tsell : Ts) (pr : ℚ) :
    ((tb, tsell, pr) ∈ candidate_trades cfg day_data ↔
      ∃ pb ps : ℚ, (tb, pb) ∈ day_data ∧ (tsell, ps) ∈ day_data ∧
        tb.t < tsell.t ∧
        pr = (ps + cfg.tax_fixed_returnable) * cfg.efficiency
          - (pb + cfg.tax_fixed_returnable) ∧
        cfg.profit_min ≤ pr) ∧
    find_best_trade cfg day_data =
      group_best_trades (sort_trades (candidate_trades cfg day_data)) [] := by
  refine ⟨?_, rfl⟩
  simp only [candidate_trades, candidate_of, List.mem_flatMap, List.mem_filterMap]
  constructor
  · rintro ⟨bp, hbp, sp, hsp, heq⟩
    split_ifs at heq with h1 h2
    · injection heq with heq
      simp only [Prod.mk.injEq] at heq
      obtain ⟨h3, h4, h5⟩ := heq
      subst h3; subst h4; subst h5
      exact ⟨bp.2, sp.2, by simpa using hbp, by simpa using hsp, h1, rfl, h2⟩
  · rintro ⟨pb, ps, hpb, hps, hlt, hpr, hmin⟩
    refine ⟨(tb, pb), hpb, (tsell, ps), hps, ?_⟩
    subst hpr
    rw [if_pos hlt, if_pos hmin]

/-! ## Sorting and greedy-selection lemmas (towards C3) -/

/-- Elements of an insertion are the inserted element or old elements. -/
theorem mem_insert_trade {x z : Ts × Ts × ℚ} {l : List (Ts × Ts × ℚ)}
    (h : z ∈ insert_trade x l) : z = x ∨ z ∈ l := by
  induction l with
  | nil => simpa [insert_trade] using h
  | cons y ys ih =>
    simp only [insert_trade] at h
    split_ifs at h
    · simpa using h
    · rcases List.mem_cons.mp h with h | h
      · exact Or.inr (by simp [h])
      · rcases ih h with h | h
        · exact Or.inl h
        · exact Or.inr (List.mem_cons_of_mem _ h)

/-- Insertion keeps the list sorted by profit, descending. -/
theorem insert_trade_pairwise {x : Ts × Ts × ℚ} {l : List (Ts × Ts × ℚ)}
    (hl : l.Pairwise fun a b => b.2.2 ≤ a.2.2) :
    (insert_trade x l).Pairwise fun a b => b.2.2 ≤ a.2.2 := by
  induction l with
  | nil => simp [insert_trade]
  | cons y ys ih =>
    rw [List.pairwise_cons] at hl
    obtain ⟨hy, hys⟩ := hl
    simp only [insert_trade]
    split_ifs with h
    · rw [List.pairwise_cons]
      refine ⟨?_, List.pairwise_cons.mpr ⟨hy, hys⟩⟩
      intro z hz
      rcases List.mem_cons.mp hz with rfl | hz
      · exact h
      · exact le_trans (hy z hz) h
    · rw [List.pairwise_cons]
      refine ⟨?_, ih hys⟩
      intro z hz
      rcases mem_insert_trade hz with rfl | hz
      · exact le_of_lt (lt_of_not_le h)
      · exact hy z hz

/-- `sort_trades` output is sorted by profit, descending. -/
theorem sort_trades_pairwise (l : List (Ts × Ts × ℚ)) :
    (sort_trades l).Pairwise fun a b => b.2.2 ≤ a.2.2 := by
  induction l with
  | nil => simp [sort_trades]
  | cons x xs ih => exact insert_trade_pairwise ih

/-- Insertion is a permutation of consing. -/
theorem insert_trade_perm (x : Ts × Ts × ℚ) (l : List (Ts × Ts × ℚ)) :
    (insert_trade x l).Perm (x :: l) := by
  induction l with
  | nil => exact List.Perm.refl _
  | cons y ys ih =>
    simp only [insert_trade]
    split_ifs with h
    · exact List.Perm.refl _
    · exact (ih.cons y).trans (List.Perm.swap x y ys)

/-- `sort_trades` permutes its input. -/
theorem sort_trades_perm (l : List (Ts × Ts × ℚ)) : (sort_trades l).Perm l := by
  induction l with
  | nil => exact List.Perm.refl _
  | cons x xs ih => exact (insert_trade_perm x (sort_trades xs)).trans (ih.cons x)

/-- Inserting an element of profit `p` puts it in front of every element
of profit `p` already present (stability, positive case). -/
theorem insert_trade_filter_pos (x : Ts × Ts × ℚ) (l : List (Ts × Ts × ℚ))
    (p : ℚ) (hx : x.2.2 = p) :
    (insert_trade x l).filter (fun z => decide (z.2.2 = p)) =
      x :: l.filter (fun z => decide (z.2.2 = p)) := by
  induction l with
  | nil => simp [insert_trade, hx]
  | cons y ys ih =>
    simp only [insert_trade]
    split_ifs with h
    · simp [List.filter_cons, hx]
    · have hy : ¬ (y.2.2 = p) := by
        rw [← hx]; intro hcon; exact h (le_of_eq hcon)
      rw [List.filter_cons_of_neg (by simpa using hy), ih,
        List.filter_cons_of_neg (by simpa using hy)]

/-- Inserting an element of a different profit leaves the profit-`p`
elements untouched (stability, negative case). -/
theorem insert_trade_filter_neg (x : Ts × Ts × ℚ) (l : List (Ts × Ts × ℚ))
    (p : ℚ) (hx : ¬ (x.2.2 = p)) :
    (insert_trade x l).filter (fun z => decide (z.2.2 = p)) =
      l.filter (fun z => decide (z.2.2 = p)) := by
  induction l with
  | nil => simp [insert_trade, hx]
  | cons y ys ih =>
    simp only [insert_trade]
    split_ifs with h
    · simp [List.filter_cons, hx]
    · simp only [List.filter_cons, ih]

/-- Stability of the sort: for every profit value, the trades carrying
that profit appear in the sorted list exactly in their enumeration
order. -/
theorem sort_trades_stable (l : List (Ts × Ts × ℚ)) (p : ℚ) :
    (sort_trades l).filter (fun z => decide (z.2.2 = p)) =
      l.filter (fun z => decide (z.2.2 = p)) := by
  induction l with
  | nil => rfl
  | cons x xs ih =>
    by_cases hx : x.2.2 = p
    · rw [sort_trades, insert_trade_filter_pos x (sort_trades xs) p hx, ih,
        List.filter_cons_of_pos (by simpa using hx)]
    · rw [sort_trades, insert_trade_filter_neg x (sort_trades xs) p hx, ih,
        List.filter_cons_of_neg (by simpa using hx)]

/-- The greedy pass returns a sublist of its input (candidates are taken
in sorted order, never reordered or duplicated). -/
theorem group_best_trades_sublist (l : List (Ts × Ts × ℚ)) :
    ∀ used : List Ts, List.Sublist (group_best_trades l used) l := by
  induction l with
  | nil => intro used; simp [group_best_trades]
  | cons y rest ih =>
    obtain ⟨b, st, p⟩ := y
    intro used
    simp only [group_best_trades]
    split_ifs with h
    · exact (ih _).cons₂ _
    · exact (ih _).cons _

/-- Trades kept by the greedy pass use no timestamp from the incoming
`used_timestamps` list. -/
theorem group_best_trades_avoid (l : List (Ts × Ts × ℚ)) :
    ∀ used : List Ts, ∀ x ∈ group_best_trades l used,
      x.1 ∉ used ∧ x.2.1 ∉ used := by
  induction l with
  | nil => intro used x hx; simp [group_best_trades] at hx
  | cons y rest ih =>
    obtain ⟨b, st, p⟩ := y
    intro used x hx
    simp only [group_best_trades] at hx
    split_ifs at hx with h
    · rcases List.mem_cons.mp hx with rfl | hx
      · exact ⟨h.1, h.2⟩
      · have hx' := ih _ x hx
        constructor
        · intro hc; exact hx'.1 (by simp [hc])
        · intro hc; exact hx'.2 (by simp [hc])
    · exact ih _ x hx

/-- The trades accepted by the greedy pass have pairwise disjoint
timestamps: a later (lower-profit) accepted trade reuses neither
timestamp of an earlier accepted one. -/
theorem group_best_trades_disjoint (l : List (Ts × Ts × ℚ)) :
    ∀ used : List Ts, (group_best_trades l used).Pairwise
      fun a c => c.1 ≠ a.1 ∧ c.1 ≠ a.2.1 ∧ c.2.1 ≠ a.1 ∧ c.2.1 ≠ a.2.1 := by
  induction l with
  | nil => intro used; simp [group_best_trades]
  | cons y rest ih =>
    obtain ⟨b, st, p⟩ := y
    intro used
    simp only [group_best_trades]
    split_ifs with h
    · rw [List.pairwise_cons]
      refine ⟨?_, ih _⟩
      intro c hc
      have hav := group_best_trades_avoid rest _ c hc
      refine ⟨?_, ?_, ?_, ?_⟩
      · intro hc1; exact hav.1 (by simp [hc1])
      · intro hc1; exact hav.1 (by simp [hc1])
      · intro hc1; exact hav.2 (by simp [hc1])
      · intro hc1; exact hav.2 (by simp [hc1])
    · exact ih _

/-- Completeness of the greedy pass: every candidate is either accepted,
or uses a timestamp already marked used, or clashes with some accepted
trade on one of its timestamps. -/
theorem group_best_trades_complete (l : List (Ts × Ts × ℚ)) :
    ∀ used : List Ts, ∀ c ∈ l,
      c ∈ group_best_trades l used ∨ c.1 ∈ used ∨ c.2.1 ∈ used ∨
        ∃ a ∈ group_best_trades l used,
          c.1 = a.1 ∨ c.1 = a.2.1 ∨ c.2.1 = a.1 ∨ c.2.1 = a.2.1 := by
  induction l with
  | nil => intro used c hc; simp at hc
  | cons y rest ih =>
    obtain ⟨b, st, p⟩ := y
    intro used c hc
    simp only [group_best_trades]
    split_ifs with h
    · rcases List.mem_cons.mp hc with rfl | hc
      · exact Or.inl (List.mem_cons_self _ _)
      · rcases ih (used ++ [b, st]) c hc with hg | hu | hu | ⟨a, ha, hconf⟩
        · exact Or.inl (List.mem_cons_of_mem _ hg)
        · rcases List.mem_append.mp hu with hu | hu
          · exact Or.inr (Or.inl hu)
          · refine Or.inr (Or.inr (Or.inr ⟨(b, st, p), List.mem_cons_self _ _, ?_⟩))
            rcases List.mem_cons.mp hu with h1 | h1
            · exact Or.inl h1
            · exact Or.inr (Or.inl (by simpa using h1))
        · rcases List.mem_append.mp hu with hu | hu
          · exact Or.inr (Or.inr (Or.inl hu))
          · refine Or.inr (Or.inr (Or.inr ⟨(b, st, p), List.mem_cons_self _ _, ?_⟩))
            rcases List.mem_cons.mp hu with h1 | h1
            · exact Or.inr (Or.inr (Or.inl h1))
            · exact Or.inr (Or.inr (Or.inr (by simpa using h1)))
        · exact Or.inr (Or.inr (Or.inr ⟨a, List.mem_cons_of_mem _ ha, hconf⟩))
    · rcases List.mem_cons.mp hc with rfl | hc
      · rcases not_and_or.mp h with h1 | h1
        · exact Or.inr (Or.inl (not_not.mp h1))
        · exact Or.inr (Or.inr (Or.inl (not_not.mp h1)))
      · exact ih used c hc

/-- Shape of a produced candidate: the inner loop body yields `some z`
only for the pair's own timestamps, with the sell strictly later and the
profit at least `profit_min`. -/
theorem candidate_of_eq_some {cfg : Config} {bp sp : Ts × ℚ} {z : Ts × Ts × ℚ}
    (h : candidate_of cfg bp sp = some z) :
    z = (bp.1, sp.1, (sp.2 + cfg.tax_fixed_returnable) * cfg.efficiency
      - (bp.2 + cfg.tax_fixed_returnable)) ∧
    bp.1.t < sp.1.t ∧ cfg.profit_min ≤ z.2.2 := by
  simp only [candidate_of] at h
  split_ifs at h with h1 h2
  cases Option.some.inj h
  exact ⟨rfl, h1, h2⟩

/-- When the day rows are chronologically sorted, the candidate
enumeration is lexicographically ordered: buy timestamp ascending, then
sell timestamp ascending. -/
theorem candidate_trades_lex (cfg : Config) (day_data : List (Ts × ℚ))
    (hday : day_data.Pairwise fun x y => x.1.t < y.1.t) :
    (candidate_trades cfg day_data).Pairwise
      fun a c => a.1.t < c.1.t ∨ (a.1.t = c.1.t ∧ a.2.1.t < c.2.1.t) := by
  unfold candidate_trades
  rw [List.pairwise_flatMap]
  refine ⟨?_, ?_⟩
  · intro bp _
    rw [List.pairwise_filterMap]
    refine hday.imp ?_
    intro sp sp' hlt z hz z' hz'
    obtain ⟨hz1, _, _⟩ := candidate_of_eq_some (Option.mem_def.mp hz)
    obtain ⟨hz1', _, _⟩ := candidate_of_eq_some (Option.mem_def.mp hz')
    subst hz1; subst hz1'
    exact Or.inr ⟨rfl, hlt⟩
  · refine hday.imp ?_
    intro bp bp' hlt z hz z' hz'
    obtain ⟨sp, _, hsp⟩ := List.mem_filterMap.mp hz
    obtain ⟨sp', _, hsp'⟩ := List.mem_filterMap.mp hz'
    obtain ⟨h1, _, _⟩ := candidate_of_eq_some hsp
    obtain ⟨h1', _, _⟩ := candidate_of_eq_some hsp'
    subst h1; subst h1'
    exact Or.inl hlt

/-! ## C3: sorting, tie-breaks, greedy selection, determinism -/

/-- C3: on a chronologically sorted day, `find_best_trade` (1) sorts the
surviving candidates by unit profit descending; (2) the sort is a
permutation of the candidates which (3) keeps equal-profit candidates in
their enumeration order, and (4) that enumeration order is buy timestamp
ascending then sell timestamp ascending, so ties resolve exactly as
claimed; the greedy pass (5) returns a sublist of the sorted candidates
(6) whose members pairwise reuse no timestamp, and (7) every sorted
candidate is either accepted or clashes on a timestamp with an accepted
trade; (8) the selector is a pure function of the day's data, so running
it twice yields the identical list. -/
theorem find_best_trade_order_spec (cfg : Config) (day_data : List (Ts × ℚ))
    (hday : day_data.Pairwise fun x y => x.1.t < y.1.t) :
    (sort_trades (candidate_trades cfg day_data)).Pairwise
      (fun a c => c.2.2 ≤ a.2.2) ∧
    (sort_trades (candidate_trades cfg day_data)).Perm
      (candidate_trades cfg day_data) ∧
    (∀ p : ℚ,
      (sort_trades (candidate_trades cfg day_data)).filter
          (fun z => decide (z.2.2 = p)) =
        (candidate_trades cfg day_data).filter (fun z => decide (z.2.2 = p))) ∧
    (candidate_trades cfg day_data).Pairwise
      (fun a c => a.1.t < c.1.t ∨ (a.1.t = c.1.t ∧ a.2.1.t < c.2.1.t)) ∧
    List.Sublist (find_best_trade cfg day_data)
      (sort_trades (candidate_trades cfg day_data)) ∧
    (find_best_trade cfg day_data).Pairwise
      (fun a c => c.1 ≠ a.1 ∧ c.1 ≠ a.2.1 ∧ c.2.1 ≠ a.1 ∧ c.2.1 ≠ a.2.1) ∧
    (∀ c ∈ sort_trades (candidate_trades cfg day_data),
      c ∈ find_best_trade cfg day_data ∨
        ∃ a ∈ find_best_trade cfg day_data,
          c.1 = a.1 ∨ c.1 = a.2.1 ∨ c.2.1 = a.1 ∨ c.2.1 = a.2.1) ∧
    find_best_trade cfg day_data = find_best_trade cfg day_data := by
  refine ⟨sort_trades_pairwise _, sort_trades_perm _,
    fun p => sort_trades_stable _ p, candidate_trades_lex cfg day_data hday,
    group_best_trades_sublist _ [], group_best_trades_disjoint _ [], ?_, rfl⟩
  intro c hc
  rcases group_best_trades_complete _ [] c hc with h | h | h | h
  · exact Or.inl h
  · simp at h
  · simp at h
  · exact Or.inr h

/-- A two-row sample day (chronological). -/
def day_sample : List (Ts × ℚ) := [(⟨0, 1⟩, 0), (⟨1, 1⟩, 10)]

/-- Witness for C3 at `day_sample`. -/
theorem find_best_trade_order_spec_witness :
    (sort_trades (candidate_trades cfg_sample day_sample)).Pairwise
      fun a c => c.2.2 ≤ a.2.2 := by
  have h := find_best_trade_order_spec cfg_sample day_sample
    (by simp [day_sample])
  exact h.1

/-! ## Invariant machinery (towards C6 and C7) -/

/-- `lot_sum` distributes over append. -/
theorem lot_sum_append (l1 l2 : List (Ts × ℚ × ℚ)) :
    lot_sum (l1 ++ l2) = lot_sum l1 + lot_sum l2 := by
  induction l1 with
  | nil => simp [lot_sum]
  | cons x xs ih => simp [lot_sum, ih]; ring

/-- A log of non-negative lots has non-negative sum. -/
theorem lot_sum_nonneg {l : List (Ts × ℚ × ℚ)} (h : ∀ x ∈ l, 0 ≤ x.2.1) :
    0 ≤ lot_sum l := by
  induction l with
  | nil => simp [lot_sum]
  | cons x xs ih =>
    have h1 := h x (List.mem_cons_self _ _)
    have h2 := ih fun y hy => h y (List.mem_cons_of_mem _ hy)
    simp only [lot_sum]
    linarith

/-- The run invariant: balance within `[0, capacity]`, every pending lot
between `0` and `speed`, lot amounts summing to the balance, and every
recorded balance within `[0, capacity]`. -/
def EngineInv (cfg : Config) (s : EngineState) : Prop :=
  0 ≤ s.balance ∧ s.balance ≤ cfg.capacity ∧
  (∀ lot ∈ s.buy_log, 0 ≤ lot.2.1 ∧ lot.2.1 ≤ cfg.speed) ∧
  lot_sum s.buy_log = s.balance ∧
  (∀ r ∈ s.transactions, 0 ≤ r.balance ∧ r.balance ≤ cfg.capacity)

/-- The initial state satisfies the invariant. -/
theorem inv_init (cfg : Config) (hv : ValidConfig cfg) : EngineInv cfg initState := by
  obtain ⟨hc, _, _, _, _⟩ := hv
  exact ⟨le_refl 0, le_of_lt hc, by simp [initState], rfl, by simp [initState]⟩

/-- The buy half of `execute_trade` (amount `min(speed, capacity -
balance)`) preserves the invariant. -/
theorem inv_buy (cfg : Config) (hv : ValidConfig cfg) (s : EngineState)
    (hs : EngineInv cfg s) (buy_time : Ts) (price : ℚ) :
    EngineInv cfg (buy_energy cfg buy_time (min cfg.speed (cfg.capacity - s.balance))
      price s) := by
  obtain ⟨hcap, hsp, hsc, _, _⟩ := hv
  obtain ⟨h0, h1, h2, h3, h4⟩ := hs
  have ha0 : 0 ≤ min cfg.speed (cfg.capacity - s.balance) :=
    le_min (le_of_lt hsp) (by linarith)
  have ha1 : min cfg.speed (cfg.capacity - s.balance) ≤ cfg.capacity - s.balance :=
    min_le_right _ _
  have ha2 : min cfg.speed (cfg.capacity - s.balance) ≤ cfg.speed :=
    min_le_left _ _
  refine ⟨?_, ?_, ?_, ?_, ?_⟩
  · show 0 ≤ s.balance + min cfg.speed (cfg.capacity - s.balance)
    linarith
  · show s.balance + min cfg.speed (cfg.capacity - s.balance) ≤ cfg.capacity
    linarith
  · intro lot hlot
    rcases List.mem_append.mp hlot with hlot | hlot
    · exact h2 lot hlot
    · rcases List.mem_singleton.mp hlot with rfl
      exact ⟨ha0, ha2⟩
  · show lot_sum (s.buy_log ++ [(buy_time, min cfg.speed (cfg.capacity - s.balance), price)]) =
      s.balance + min cfg.speed (cfg.capacity - s.balance)
    rw [lot_sum_append, h3]
    simp [lot_sum]
  · intro r hr
    rcases List.mem_append.mp hr with hr | hr
    · exact h4 r hr
    · rcases List.mem_singleton.mp hr with rfl
      constructor
      · show (0:ℚ) ≤ s.balance + min cfg.speed (cfg.capacity - s.balance)
        linarith
      · show s.balance + min cfg.speed (cfg.capacity - s.balance) ≤ cfg.capacity
        linarith

/-- Under the invariant, the head lot fits both the speed and the
balance, so the sell's matched amount is the whole lot. -/
theorem head_lot_consumed (cfg : Config) (s : EngineState) (hinv : EngineInv cfg s)
    (buy_time : Ts) (ba bp : ℚ) (rest : List (Ts × ℚ × ℚ))
    (hlog : s.buy_log = (buy_time, ba, bp) :: rest) :
    min cfg.speed (min s.balance ba) = ba := by
  obtain ⟨h0, h1, h2, h3, h4⟩ := hinv
  have hlot := h2 (buy_time, ba, bp) (hlog ▸ List.mem_cons_self _ _)
  have hrest : 0 ≤ lot_sum rest :=
    lot_sum_nonneg fun y hy => (h2 y (hlog ▸ List.mem_cons_of_mem _ hy)).1
  have hsum : ba + lot_sum rest = s.balance := by
    rw [← h3, hlog]; rfl
  have hba_bal : ba ≤ s.balance := by linarith
  rw [min_eq_right hba_bal, min_eq_right hlot.2]

/-- The state after an acting sell, written out. -/
theorem sell_energy_eq (cfg : Config) (timestamp : Ts) (price : ℚ)
    (s : EngineState) (buy_time : Ts) (ba bp : ℚ) (rest : List (Ts × ℚ × ℚ))
    (hlog : s.buy_log = (buy_time, ba, bp) :: rest) (hbal : 0 < s.balance) :
    sell_energy cfg timestamp price s =
      { s with
        balance := s.balance - min cfg.speed (min s.balance ba)
        total_profit := s.total_profit +
          (min cfg.speed (min s.balance ba) * (price + cfg.tax_fixed_returnable) * cfg.efficiency
            - min cfg.speed (min s.balance ba) * (bp + cfg.tax_fixed_returnable))
        monthly_profit :=
          (if s.month_current ≠ timestamp.month then 0 else s.monthly_profit) +
          (min cfg.speed (min s.balance ba) * (price + cfg.tax_fixed_returnable) * cfg.efficiency
            - min cfg.speed (min s.balance ba) * (bp + cfg.tax_fixed_returnable))
        month_current :=
          if s.month_current ≠ timestamp.month then timestamp.month else s.month_current
        buy_log := rest
        transactions := s.transactions ++
          [{ date := timestamp, action := "sell",
             amount_kwh := min cfg.speed (min s.balance ba),
             amount_eur := min cfg.speed (min s.balance ba) * price * cfg.efficiency,
             price := price,
             balance := s.balance - min cfg.speed (min s.balance ba),
             cycles := s.cycles, capacity_cycles := s.capacity_cycles,
             profit := min cfg.speed (min s.balance ba) * (price + cfg.tax_fixed_returnable) * cfg.efficiency
               - min cfg.speed (min s.balance ba) * (bp + cfg.tax_fixed_returnable),
             month_profit :=
               (if s.month_current ≠ timestamp.month then 0 else s.monthly_profit) +
               (min cfg.speed (min s.balance ba) * (price + cfg.tax_fixed_returnable) * cfg.efficiency
                 - min cfg.speed (min s.balance ba) * (bp + cfg.tax_fixed_returnable)),
             total_profit := s.total_profit +
               (min cfg.speed (min s.balance ba) * (price + cfg.tax_fixed_returnable) * cfg.efficiency
                 - min cfg.speed (min s.balance ba) * (bp + cfg.tax_fixed_returnable)) }] } := by
  simp only [sell_energy, hlog, if_pos hbal]

/-- The sell step preserves the invariant. -/
theorem inv_sell (cfg : Config) (hv : ValidConfig cfg) (s : EngineState)
    (hs : EngineInv cfg s) (timestamp : Ts) (price : ℚ) :
    EngineInv cfg (sell_energy cfg timestamp price s) := by
  cases hl : s.buy_log with
  | nil =>
    have hid : sell_energy cfg timestamp price s = s := by
      simp only [sell_energy, hl]
    rwa [hid]
  | cons lot rest =>
    obtain ⟨bt0, ba0, bp0⟩ := lot
    by_cases hb : 0 < s.balance
    · have hmin := head_lot_consumed cfg s hs bt0 ba0 bp0 rest hl
      have heq := sell_energy_eq cfg timestamp price s bt0 ba0 bp0 rest hl hb
      obtain ⟨h0, h1, h2, h3, h4⟩ := hs
      have hba0 : 0 ≤ ba0 := (h2 _ (hl ▸ List.mem_cons_self _ _)).1
      have hrest : 0 ≤ lot_sum rest :=
        lot_sum_nonneg fun y hy => (h2 y (hl ▸ List.mem_cons_of_mem _ hy)).1
      have hsum : ba0 + lot_sum rest = s.balance := by
        rw [← h3, hl]; rfl
      rw [heq]
      refine ⟨?_, ?_, ?_, ?_, ?_⟩
      · show 0 ≤ s.balance - min cfg.speed (min s.balance ba0)
        rw [hmin]; linarith
      · show s.balance - min cfg.speed (min s.balance ba0) ≤ cfg.capacity
        rw [hmin]; linarith
      · intro lot hlot
        exact h2 lot (hl ▸ List.mem_cons_of_mem _ hlot)
      · show lot_sum rest = s.balance - min cfg.speed (min s.balance ba0)
        rw [hmin]; linarith
      · intro r hr
        rcases List.mem_append.mp hr with hr | hr
        · exact h4 r hr
        · rcases List.mem_singleton.mp hr with rfl
          constructor
          · show (0:ℚ) ≤ s.balance - min cfg.speed (min s.balance ba0)
            rw [hmin]; linarith
          · show s.balance - min cfg.speed (min s.balance ba0) ≤ cfg.capacity
            rw [hmin]; linarith
    · have hid : sell_energy cfg timestamp price s = s := by
        simp only [sell_energy, hl, if_neg hb]
      rwa [hid]

/-- Every reachable state satisfies the invariant. -/
theorem inv_reaches (cfg : Config) (prices : Ts → ℚ) (hv : ValidConfig cfg) :
    ∀ s : EngineState, Reaches cfg prices s → EngineInv cfg s := by
  intro s h
  induction h with
  | init => exact inv_init cfg hv
  | buy s' bt _ ih => exact inv_buy cfg hv s' ih bt (prices bt)
  | sell s' st _ ih => exact inv_sell cfg hv s' ih st (prices st)

/-- `execute_trade` keeps states reachable. -/
theorem reaches_execute (cfg : Config) (prices : Ts → ℚ) (buy_time sell_time : Ts)
    (s : EngineState) (h : Reaches cfg prices s) :
    Reaches cfg prices (execute_trade cfg prices buy_time sell_time s) :=
  Reaches.sell _ sell_time (Reaches.buy s buy_time h)

/-- The inner loop of `run` keeps states reachable. -/
theorem reaches_process (cfg : Config) (prices : Ts → ℚ) :
    ∀ (l : List (Ts × Ts × ℚ)) (last : Option Ts) (s : EngineState),
      Reaches cfg prices s → Reaches cfg prices (process_trades cfg prices l last s).1 := by
  intro l
  induction l with
  | nil => intro last s h; exact h
  | cons tr rest ih =>
    obtain ⟨bt, st, p⟩ := tr
    intro last s h
    simp only [process_trades]
    apply ih
    split_ifs with hc
    · exact reaches_execute cfg prices bt st s h
    · exact h

/-- The final state of `run` is reachable. -/
theorem reaches_run (cfg : Config) (prices : Ts → ℚ)
    (days : List (List (Ts × ℚ))) : Reaches cfg prices (run cfg prices days) := by
  unfold run
  have hgen : ∀ (ds : List (List (Ts × ℚ))) (acc : EngineState × Option Ts),
      Reaches cfg prices acc.1 →
      Reaches cfg prices ((ds.foldl
        (fun acc day_data =>
          process_trades cfg prices (find_best_trade cfg day_data) acc.2 acc.1)
        acc).1) := by
    intro ds
    induction ds with
    | nil => intro acc h; exact h
    | cons d rest ih =>
      intro acc h
      exact ih _ (reaches_process cfg prices _ _ _ h)
  exact hgen days (initState, none) Reaches.init

/-! ## C6: balance bounds -/

/-- C6: with a valid configuration, the battery balance starts at zero
and stays within `[0, capacity]` at every reachable state — in
particular at the balance recorded by every `ActionRecord` emitted
during a run — and all states of a full `run` are reachable. -/
theorem balance_bounds_spec (cfg : Config) (prices : Ts → ℚ) (s : EngineState)
    (hv : ValidConfig cfg) (hs : Reaches cfg prices s) :
    initState.balance = 0 ∧
    0 ≤ s.balance ∧ s.balance ≤ cfg.capacity ∧
    (∀ r ∈ s.transactions, 0 ≤ r.balance ∧ r.balance ≤ cfg.capacity) ∧
    (∀ days : List (List (Ts × ℚ)), Reaches cfg prices (run cfg prices days)) := by
  have h := inv_reaches cfg prices hv s hs
  exact ⟨rfl, h.1, h.2.1, h.2.2.2.2, fun days => reaches_run cfg prices days⟩

/-- A constant price function for the witnesses. -/
def prices_sample : Ts → ℚ := fun _ => 0

/-- Witness for C6 at the initial state. -/
theorem balance_bounds_spec_witness :
    0 ≤ initState.balance ∧ initState.balance ≤ cfg_sample.capacity := by
  have h := balance_bounds_spec cfg_sample prices_sample initState
    (by norm_num [ValidConfig, cfg_sample]) Reaches.init
  exact ⟨h.2.1, h.2.2.1⟩

/-! ## C7: pending lots sum to the balance -/

/-- C7: with a valid configuration, at every reachable state — before
and after each buy and each sell of a run, all of which are reachable,
as is every state of a full `run` — the pending-lot amounts sum to the
battery balance; in particular an acting sell's matched amount
`min(speed, balance, lot_amount)` equals the whole head lot, so removing
the lot while subtracting the matched amount preserves the equality. -/
theorem lot_sum_balance_spec (cfg : Config) (prices : Ts → ℚ) (s : EngineState)
    (hv : ValidConfig cfg) (hs : Reaches cfg prices s) :
    lot_sum s.buy_log = s.balance ∧
    (∀ (buy_time : Ts) (ba bp : ℚ) (rest : List (Ts × ℚ × ℚ)),
      s.buy_log = (buy_time, ba, bp) :: rest →
        min cfg.speed (min s.balance ba) = ba ∧
        lot_sum rest = s.balance - min cfg.speed (min s.balance ba)) ∧
    (∀ days : List (List (Ts × ℚ)), Reaches cfg prices (run cfg prices days)) := by
  have h := inv_reaches cfg prices hv s hs
  refine ⟨h.2.2.2.1, ?_, fun days => reaches_run cfg prices days⟩
  intro buy_time ba bp rest hlog
  have hmin := head_lot_consumed cfg s h buy_time ba bp rest hlog
  refine ⟨hmin, ?_⟩
  rw [hmin]
  have hsum : ba + lot_sum rest = s.balance := by
    rw [← h.2.2.2.1, hlog]; rfl
  linarith

/-- Witness for C7 at the initial state. -/
theorem lot_sum_balance_spec_witness :
    lot_sum initState.buy_log = initState.balance :=
  (lot_sum_balance_spec cfg_sample prices_sample initState
    (by norm_num [ValidConfig, cfg_sample]) Reaches.init).1

/-! ## C4: the driver's skip rule -/

/-- The driver performs exactly the actions of the executed trades: the
inner loop's final state is `execute_trade` folded over
`executed_trades`, so skipped pairs contribute no actions. -/
theorem process_trades_foldl (cfg : Config) (prices : Ts → ℚ) :
    ∀ (l : List (Ts × Ts × ℚ)) (last : Option Ts) (s : EngineState),
      (process_trades cfg prices l last s).1 =
        (executed_trades last l).foldl
          (fun st tr => execute_trade cfg prices tr.1 tr.2.1 st) s := by
  intro l
  induction l with
  | nil => intro last s; rfl
  | cons tr rest ih =>
    obtain ⟨bt, st, pr⟩ := tr
    intro last s
    simp only [process_trades, executed_trades]
    split_ifs with hc
    · rw [ih, List.foldl_cons]
    · rw [ih]

/-- The first considered pair is always executed, and afterwards the
guard compares against the sell time of the *previous considered* pair,
executed or not. -/
theorem executed_trades_cons (p : Ts × Ts × ℚ) (ps : List (Ts × Ts × ℚ)) :
    executed_trades none (p :: ps) = p :: executed_trades (some p.2.1) ps := by
  obtain ⟨bt, st, pr⟩ := p
  simp [executed_trades, last_sell_ok]

/-- With a previous sell time in hand, a pair is executed iff its buy
time is strictly after the sell time of the pair considered immediately
before it. -/
theorem executed_trades_some (ps : List (Ts × Ts × ℚ)) : ∀ l : Ts,
    executed_trades (some l) ps =
      ((ps.zip (l :: ps.map fun tr => tr.2.1)).filter
        (fun q => decide (q.2.t < q.1.1.t))).map Prod.fst := by
  induction ps with
  | nil => intro l; rfl
  | cons tr rest ih =>
    obtain ⟨bt, st, pr⟩ := tr
    intro l
    simp only [executed_trades, last_sell_ok, List.map_cons, List.zip_cons_cons,
      List.filter_cons]
    by_cases h : l.t < bt.t
    · simp [h, ih st]
    · simp [h, ih st]

/-- C4 (amended): the driver executes a pair iff it is the first pair
considered in the run or its buy timestamp is strictly after the sell
timestamp of the *previous considered* pair (`last_sell_time` advances
on every considered pair, including dropped ones, so a dropped pair does
influence which later pairs are executed); executed pairs — and only
they — contribute actions, each dropped pair silently and finally. -/
theorem run_skip_spec (cfg : Config) (prices : Ts → ℚ) :
    (∀ (l : List (Ts × Ts × ℚ)) (last : Option Ts) (s : EngineState),
      (process_trades cfg prices l last s).1 =
        (executed_trades last l).foldl
          (fun st tr => execute_trade cfg prices tr.1 tr.2.1 st) s) ∧
    (∀ (p : Ts × Ts × ℚ) (ps : List (Ts × Ts × ℚ)),
      executed_trades none (p :: ps) =
        p :: ((ps.zip (p.2.1 :: ps.map fun tr => tr.2.1)).filter
          (fun q => decide (q.2.t < q.1.1.t))).map Prod.fst) :=
  ⟨process_trades_foldl cfg prices,
   fun p ps => by rw [executed_trades_cons, executed_trades_some]⟩

/-- Configuration for the C4 counterexample (efficiency 1, no tax,
minimum profit 25). -/
def cfg_c4 : Config :=
  { capacity := 5, speed := 5, efficiency := 1, day_ahead_time := 0,
    profit_min := 25, tax_fixed_returnable := 0 }

/-- Six chronological price points in one day. -/
def day_c4 : List (Ts × ℚ) :=
  [(⟨0, 1⟩, 0), (⟨1, 1⟩, 10), (⟨2, 1⟩, 50), (⟨3, 1⟩, 20), (⟨4, 1⟩, 45),
   (⟨5, 1⟩, 100)]

/-- C4 counterexample: on `day_c4` the selector returns
`[(0,5,100), (1,2,40), (3,4,25)]`; the driver executes `(0,5)` and then
also `(3,4)` — whose buy hour 3 is *not* after hour 5, the sell of the
most recently executed pair — because the dropped pair `(1,2)` moved
`last_sell_time` to hour 2.  Under the claim's rule only `(0,5)` would
execute, so the claim is false on this input. -/
theorem run_skip_counterexample :
    find_best_trade cfg_c4 day_c4 =
      [(⟨0, 1⟩, ⟨5, 1⟩, 100), (⟨1, 1⟩, ⟨2, 1⟩, 40), (⟨3, 1⟩, ⟨4, 1⟩, 25)] ∧
    executed_trades none (find_best_trade cfg_c4 day_c4) =
      [(⟨0, 1⟩, ⟨5, 1⟩, 100), (⟨3, 1⟩, ⟨4, 1⟩, 25)] ∧
    claim_executed_trades none (find_best_trade cfg_c4 day_c4) =
      [(⟨0, 1⟩, ⟨5, 1⟩, 100)] ∧
    executed_trades none (find_best_trade cfg_c4 day_c4) ≠
      claim_executed_trades none (find_best_trade cfg_c4 day_c4) := by
  have h1 : find_best_trade cfg_c4 day_c4 =
      [(⟨0, 1⟩, ⟨5, 1⟩, 100), (⟨1, 1⟩, ⟨2, 1⟩, 40), (⟨3, 1⟩, ⟨4, 1⟩, 25)] := by
    norm_num [find_best_trade, candidate_trades, candidate_of, sort_trades,
      insert_trade, group_best_trades, cfg_c4, day_c4, List.filterMap_cons,
      List.flatMap_cons, Ts.mk.injEq]
  rw [h1]
  refine ⟨rfl, ?_, ?_, ?_⟩ <;>
    norm_num [executed_trades, claim_executed_trades, last_sell_ok, Ts.mk.injEq]

/-- Witness for C1: on `day_sample` the pair (hour 0 at price 0, hour 1
at price 10) qualifies with unit profit 10. -/
theorem candidate_trades_spec_witness :
    (⟨0, 1⟩, ⟨1, 1⟩, (10:ℚ)) ∈ candidate_trades cfg_sample day_sample :=
  (candidate_trades_spec cfg_sample day_sample ⟨0, 1⟩ ⟨1, 1⟩ 10).1.mpr
    ⟨0, 10, by norm_num [day_sample], by norm_num [day_sample],
      by norm_num, by norm_num [cfg_sample], by norm_num [cfg_sample]⟩
